import Mathlib

/-!
Shallow embedding of the scheduling core of src/app.py (`compute_quadrant`,
`minutes_between`, `dt_on`, `move_cursor`, `generate_schedule`).

Modelling conventions:
* Calendar dates are represented by their `toordinal` day number (an `Int`);
  `date` arithmetic with `timedelta(days=k)` becomes integer addition.
* Wall-clock datetimes are represented as minutes (an `Int`): `dt_on day t`
  anchors a minute-of-day `t` to day `day`.  Every datetime the core builds
  lies on a whole minute (`st.time_input` has minute resolution and all
  offsets are whole minutes), so `minutes_between`'s
  `int((b-a).total_seconds() // 60)` is the exact difference `b - a`.
* Python dicts for tasks / schedule entries / meta become structures.  The
  schedule-entry key named end is modelled by the field `stop` (end is a
  Lean keyword).  The empty meta dict `{}` of the early returns is modelled
  as `none`, a populated meta as `some`.
* `buffer_ratio` is a Python float; it is modelled as an exact rational.
  The line `int(total_available * (1.0 - max(0.0, min(buffer_ratio, 0.8))))`
  becomes an exact-rational floor (the operand is nonnegative there, so
  Python's truncating `int` is a floor).  Binary floating-point rounding is
  not captured by this embedding.
* Python's stable `list.sort(key=...)` is modelled by a stable insertion
  sort over the same key; a stable sort for a total preorder is unique, so
  this agrees with CPython's Timsort.
-/

namespace App

/-- Task record (the task dicts of src/app.py); `due` holds the date's
`toordinal` number, or `none` for no deadline. -/
structure Task where
  id : Nat
  title : String
  duration_min : Int
  importance : Int
  due : Option Int
  status : String
deriving DecidableEq

/-- Python's str.startswith, on the code-point lists of the strings. -/
def strStartsWith (s pre : String) : Bool :=
  pre.data.isPrefixOf s.data

/-- The four quadrant labels returned by compute_quadrant (lines 37-43). -/
def quadLabels : List String :=
  ["Q1 重要且急", "Q2 重要不急", "Q3 不重要但急", "Q4 不重要不急"]

/-- compute_quadrant (src/app.py lines 20-43). -/
def compute_quadrant (task : Task) (tomorrow : Int)
    (importance_threshold : Int) (urgent_days : Int) : String :=
  let important : Bool := decide (task.importance ≥ importance_threshold)
  let urgent : Bool :=
    match task.due with
    | none => false
    | some due => decide (due ≤ tomorrow + max (urgent_days - 1) 0)
  if important && urgent then "Q1 重要且急"
  else if important && !urgent then "Q2 重要不急"
  else if !important && urgent then "Q3 不重要但急"
  else "Q4 不重要不急"

/-- minutes_between (lines 46-47): all datetimes in the core are on whole
minutes, so the floor division by 60 of the seconds is exact. -/
def minutes_between (a_dt b_dt : Int) : Int :=
  b_dt - a_dt

/-- dt_on (lines 50-51): anchor a minute-of-day to a day ordinal. -/
def dt_on (day : Int) (t : Int) : Int :=
  1440 * day + t

/-- Lines 71-76: build the valid segments from the blocks, keeping only
pairs with end > start. -/
def validSegments (tomorrow : Int) (blocks : List (Int × Int)) : List (Int × Int) :=
  (blocks.map (fun b => (dt_on tomorrow b.1, dt_on tomorrow b.2))).filter
    (fun se => decide (se.1 < se.2))

/-- Line 87: due_key is the due date's ordinal, else the sentinel 10^9. -/
def due_key (t : Task) : Int :=
  match t.due with
  | some d => d
  | none => 10 ^ 9

/-- Lines 84-88: classify every todo task and attach its sort key. -/
def enrichedOf (todo : List Task) (tomorrow importance_threshold urgent_days : Int) :
    List (Task × String × Int) :=
  todo.map (fun t => (t, compute_quadrant t tomorrow importance_threshold urgent_days, due_key t))

/-- Lexicographic order on the two-component sort keys used by lines 97-100. -/
def keyLe (a b : Int × Int) : Bool :=
  decide (a.1 < b.1 ∨ (a.1 = b.1 ∧ a.2 ≤ b.2))

/-- Stable insertion of an element into a sorted list (front of ties). -/
def orderedInsertB (le : α → α → Bool) (x : α) : List α → List α
  | [] => [x]
  | y :: ys => if le x y then x :: y :: ys else y :: orderedInsertB le x ys

/-- Stable insertion sort; models Python's stable list.sort. -/
def insertionSortB (le : α → α → Bool) : List α → List α
  | [] => []
  | x :: xs => orderedInsertB le x (insertionSortB le xs)

/-- Stable ascending sort by a two-component key (list.sort(key=...)). -/
def sortByKey (key : α → Int × Int) (l : List α) : List α :=
  insertionSortB (fun a b => keyLe (key a) (key b)) l

/-- Sort key of lines 97-99: (due_key, -importance). -/
def key12 (x : Task × String × Int) : Int × Int :=
  (x.2.2, -x.1.importance)

/-- Sort key of line 100: (-importance, due_key). -/
def key4 (x : Task × String × Int) : Int × Int :=
  (-x.1.importance, x.2.2)

/-- Lines 91-94: one quadrant bucket, by prefix of the quadrant string. -/
def bucket (pre : String) (enriched : List (Task × String × Int)) :
    List (Task × String × Int) :=
  enriched.filter (fun x => strStartsWith x.2.1 pre)

/-- Line 97: the sorted Q1 bucket. -/
def q1sorted (enriched : List (Task × String × Int)) : List (Task × String × Int) :=
  sortByKey key12 (bucket "Q1" enriched)

/-- Line 98: the sorted Q2 bucket. -/
def q2sorted (enriched : List (Task × String × Int)) : List (Task × String × Int) :=
  sortByKey key12 (bucket "Q2" enriched)

/-- Line 99: the sorted Q3 bucket. -/
def q3sorted (enriched : List (Task × String × Int)) : List (Task × String × Int) :=
  sortByKey key12 (bucket "Q3" enriched)

/-- Line 100: the sorted Q4 bucket, keyed by (-importance, due_key). -/
def q4sorted (enriched : List (Task × String × Int)) : List (Task × String × Int) :=
  sortByKey key4 (bucket "Q4" enriched)

/-- Lines 102-105: split Q2 at max(0, ensure_q2) and concatenate the final
placement order q1 ++ q2_early ++ q2_rest ++ q3 ++ q4. -/
def orderedOf (enriched : List (Task × String × Int)) (ensure_q2 : Int) :
    List (Task × String × Int) :=
  q1sorted enriched
    ++ (q2sorted enriched).take (max 0 ensure_q2).toNat
    ++ (q2sorted enriched).drop (max 0 ensure_q2).toNat
    ++ q3sorted enriched
    ++ q4sorted enriched

/-- Lines 115-116 of move_cursor: the clamp if cur < s then cur = s. -/
def clampCur (cur s : Int) : Int :=
  if cur < s then s else cur

/-- move_cursor (lines 112-122), walking the suffix of the segment list
that starts at the current index; the first argument is that suffix. -/
def mcAux : List (Int × Int) → Nat → Int → Nat × Int
  | [], si, cur => (si, cur)
  | (s, e) :: rest, si, cur =>
    if clampCur cur s < e then (si, clampCur cur s)
    else
      match rest with
      | [] => (si + 1, clampCur cur s)
      | (s2, e2) :: rest2 => mcAux ((s2, e2) :: rest2) (si + 1) s2

/-- move_cursor (lines 112-122) on the full segment list and an index. -/
def move_cursor (segments : List (Int × Int)) (si : Nat) (cur : Int) : Nat × Int :=
  mcAux (segments.drop si) si cur

/-- The inner while loop of lines 136-163 for one task, with the
move_cursor call of line 138 inlined into the traversal (the
remaining <= 0 branch of lines 144-146 is unreachable because move_cursor
only stops strictly inside a segment).  The first argument is the suffix
of the segment list from the current index.  Returns the remaining
suffix, the new seg_idx and cursor, and the placed interval, if any. -/
def placeLoop (dur : Int) : List (Int × Int) → Nat → Int →
    (List (Int × Int) × Nat × Int) × Option (Int × Int)
  | [], si, cur => (([], si, cur), none)
  | (s, e) :: rest, si, cur =>
    if clampCur cur s < e then
      if dur ≤ minutes_between (clampCur cur s) e then
        (((s, e) :: rest, si, clampCur cur s + dur),
          some (clampCur cur s, clampCur cur s + dur))
      else placeLoop dur rest (si + 1) (clampCur cur s)
    else
      match rest with
      | [] => (([], si + 1, clampCur cur s), none)
      | (s2, e2) :: rest2 => placeLoop dur ((s2, e2) :: rest2) (si + 1) s2

/-- One schedule entry (the dicts appended at lines 153-159); the source's
key named end is the field `stop`. -/
structure ScheduleEntry where
  start : Int
  stop : Int
  title : String
  quadrant : String
  task_id : Nat
deriving DecidableEq

/-- The mutable state of the placement loop of lines 108-166. -/
structure LoopState where
  used : Int
  seg_idx : Nat
  cursor : Int
  schedule : List ScheduleEntry
  overflow : List Task
deriving DecidableEq

/-- One iteration of the for loop over ordered tasks (lines 129-166). -/
def scheduleStep (segments : List (Int × Int)) (sched_limit : Int)
    (st : LoopState) (x : Task × String × Int) : LoopState :=
  if sched_limit < st.used + x.1.duration_min then
    { st with overflow := st.overflow ++ [x.1] }
  else
    match placeLoop x.1.duration_min (segments.drop st.seg_idx) st.seg_idx st.cursor with
    | ((_, si, cur), some pe) =>
      { used := st.used + x.1.duration_min
        seg_idx := si
        cursor := cur
        schedule := st.schedule ++
          [{ start := pe.1, stop := pe.2, title := x.1.title,
             quadrant := x.2.1, task_id := x.1.id }]
        overflow := st.overflow }
    | ((_, si, cur), none) =>
      { st with seg_idx := si, cursor := cur, overflow := st.overflow ++ [x.1] }

/-- Line 169: the initial four-quadrant map with empty lists. -/
def quadInit : List (String × List Task) :=
  [("Q1 重要且急", []), ("Q2 重要不急", []), ("Q3 不重要但急", []), ("Q4 不重要不急", [])]

/-- Line 171: append a task to the list stored under its quadrant key.
An unknown key leaves the map unchanged where Python would raise KeyError;
this case is unreachable because compute_quadrant only returns the four
keys of quadInit. -/
def quadAdd (m : List (String × List Task)) (q : String) (t : Task) :
    List (String × List Task) :=
  m.map (fun p => if p.1 = q then (p.1, p.2 ++ [t]) else p)

/-- Lines 169-171: build the quadrant map from the enriched todo list. -/
def quadMapOf (enriched : List (Task × String × Int)) : List (String × List Task) :=
  enriched.foldl (fun m x => quadAdd m x.2.1 x.1) quadInit

/-- Line 81: the schedule budget.  The operand of Python's truncating int
conversion is nonnegative whenever this line runs, so it is a floor; the
float product is modelled as an exact rational product. -/
def schedLimitOf (total_available : Int) (buffer_ratio : ℚ) : Int :=
  ⌊(total_available : ℚ) * (1 - max 0 (min buffer_ratio 0.8))⌋

/-- ScheduleMeta: the meta dict of lines 173-177. -/
structure Meta where
  total_available_min : Int
  sched_limit_min : Int
  used_min : Int
deriving DecidableEq

/-- Line 66: the todo filter. -/
def todoOf (tasks : List Task) : List Task :=
  tasks.filter (fun t => t.status == "todo")

/-- Line 80: total_available, the sum of the segment lengths in minutes. -/
def totalAvailableOf (segments : List (Int × Int)) : Int :=
  (segments.map (fun se => minutes_between se.1 se.2)).sum

/-- Lines 108-124: the initial loop state, with the cursor advanced by the
move_cursor call of line 124 from the first segment start of line 110. -/
def initState (segments : List (Int × Int)) (hseg : segments ≠ []) : LoopState :=
  { used := 0
    seg_idx := (move_cursor segments 0 (segments.head hseg).1).1
    cursor := (move_cursor segments 0 (segments.head hseg).1).2
    schedule := []
    overflow := [] }

/-- Lines 126-166: the loop state after placing every ordered task. -/
def finalState (tasks : List Task) (tomorrow : Int) (blocks : List (Int × Int))
    (importance_threshold urgent_days : Int) (buffer_ratio : ℚ) (ensure_q2 : Int)
    (hseg : validSegments tomorrow blocks ≠ []) : LoopState :=
  (orderedOf (enrichedOf (todoOf tasks) tomorrow importance_threshold urgent_days)
      ensure_q2).foldl
    (scheduleStep (validSegments tomorrow blocks)
      (schedLimitOf (totalAvailableOf (validSegments tomorrow blocks)) buffer_ratio))
    (initState (validSegments tomorrow blocks) hseg)

/-- Lines 168-178: the quadruple returned on the main path. -/
def mainResult (tasks : List Task) (tomorrow : Int) (blocks : List (Int × Int))
    (importance_threshold urgent_days : Int) (buffer_ratio : ℚ) (ensure_q2 : Int)
    (hseg : validSegments tomorrow blocks ≠ []) :
    List ScheduleEntry × List (String × List Task) × Option Meta × List Task :=
  ((finalState tasks tomorrow blocks importance_threshold urgent_days buffer_ratio
      ensure_q2 hseg).schedule,
   quadMapOf (enrichedOf (todoOf tasks) tomorrow importance_threshold urgent_days),
   some ⟨totalAvailableOf (validSegments tomorrow blocks),
     schedLimitOf (totalAvailableOf (validSegments tomorrow blocks)) buffer_ratio,
     (finalState tasks tomorrow blocks importance_threshold urgent_days buffer_ratio
       ensure_q2 hseg).used⟩,
   (finalState tasks tomorrow blocks importance_threshold urgent_days buffer_ratio
     ensure_q2 hseg).overflow)

/-- generate_schedule (src/app.py lines 54-178).  The two early returns
give the empty meta (`none`) and the empty quadrant map (`[]`). -/
def generate_schedule (tasks : List Task) (tomorrow : Int) (blocks : List (Int × Int))
    (importance_threshold urgent_days : Int) (buffer_ratio : ℚ) (ensure_q2 : Int) :
    List ScheduleEntry × List (String × List Task) × Option Meta × List Task :=
  if (todoOf tasks).isEmpty then ([], [], none, [])
  else if hseg : validSegments tomorrow blocks = [] then ([], [], none, todoOf tasks)
  else
    mainResult tasks tomorrow blocks importance_threshold urgent_days buffer_ratio
      ensure_q2 hseg

/-- Module-level constant IMPORTANCE_THRESHOLD (line 11). -/
def IMPORTANCE_THRESHOLD : Int := 4

/-- Module-level constant URGENT_DAYS (line 12). -/
def URGENT_DAYS : Int := 1

/-- Module-level constant BUFFER_RATIO (line 13). -/
def BUFFER_RATIO : ℚ := 0.20

/-- Module-level constant ENSURE_Q2 (line 14). -/
def ENSURE_Q2 : Int := 1

/-! Basic properties of the stable insertion sort. -/

theorem orderedInsertB_perm (le : α → α → Bool) (x : α) (l : List α) :
    (orderedInsertB le x l).Perm (x :: l) := by
  induction l with
  | nil => simp [orderedInsertB]
  | cons y ys ih =>
    simp only [orderedInsertB]
    cases hxy : le x y with
    | true => simp
    | false =>
      simp only [Bool.false_eq_true, if_false]
      exact (ih.cons y).trans (List.Perm.swap x y ys)

theorem insertionSortB_perm (le : α → α → Bool) (l : List α) :
    (insertionSortB le l).Perm l := by
  induction l with
  | nil => simp [insertionSortB]
  | cons x xs ih =>
    exact ((orderedInsertB_perm le x (insertionSortB le xs)).trans (ih.cons x))

theorem mem_orderedInsertB (le : α → α → Bool) (x a : α) (l : List α) :
    a ∈ orderedInsertB le x l ↔ a = x ∨ a ∈ l := by
  rw [(orderedInsertB_perm le x l).mem_iff, List.mem_cons]

theorem pairwise_orderedInsertB (le : α → α → Bool)
    (htot : ∀ a b, le a b = true ∨ le b a = true)
    (htrans : ∀ a b c, le a b = true → le b c = true → le a c = true)
    (x : α) (l : List α) (h : l.Pairwise (fun a b => le a b = true)) :
    (orderedInsertB le x l).Pairwise (fun a b => le a b = true) := by
  induction l with
  | nil => simp [orderedInsertB]
  | cons y ys ih =>
    rw [List.pairwise_cons] at h
    simp only [orderedInsertB]
    cases hxy : le x y with
    | true =>
      rw [if_pos rfl, List.pairwise_cons]
      refine ⟨?_, List.pairwise_cons.2 h⟩
      intro z hz
      rcases List.mem_cons.1 hz with rfl | hz
      · exact hxy
      · exact htrans x y z hxy (h.1 z hz)
    | false =>
      simp only [Bool.false_eq_true, if_false]
      rw [List.pairwise_cons]
      refine ⟨?_, ih h.2⟩
      intro z hz
      rcases (mem_orderedInsertB le x z ys).1 hz with rfl | hz
      · rcases htot z y with h' | h'
        · rw [h'] at hxy; cases hxy
        · exact h'
      · exact h.1 z hz

theorem pairwise_insertionSortB (le : α → α → Bool)
    (htot : ∀ a b, le a b = true ∨ le b a = true)
    (htrans : ∀ a b c, le a b = true → le b c = true → le a c = true)
    (l : List α) :
    (insertionSortB le l).Pairwise (fun a b => le a b = true) := by
  induction l with
  | nil => simp [insertionSortB]
  | cons x xs ih => exact pairwise_orderedInsertB le htot htrans x _ ih

theorem keyLe_iff (a b : Int × Int) :
    keyLe a b = true ↔ a.1 < b.1 ∨ (a.1 = b.1 ∧ a.2 ≤ b.2) := by
  simp [keyLe]

theorem keyLe_total (a b : Int × Int) : keyLe a b = true ∨ keyLe b a = true := by
  simp only [keyLe_iff]; omega

theorem keyLe_trans (a b c : Int × Int) :
    keyLe a b = true → keyLe b c = true → keyLe a c = true := by
  simp only [keyLe_iff]; omega

theorem sortByKey_perm (key : α → Int × Int) (l : List α) :
    (sortByKey key l).Perm l :=
  insertionSortB_perm _ l

theorem sortByKey_pairwise (key : α → Int × Int) (l : List α) :
    (sortByKey key l).Pairwise (fun a b => keyLe (key a) (key b) = true) :=
  pairwise_insertionSortB _ (fun a b => keyLe_total (key a) (key b))
    (fun a b c => keyLe_trans (key a) (key b) (key c)) l

/-! The quadrant labels and the bucket partition. -/

theorem compute_quadrant_mem (task : Task) (tomorrow importance_threshold urgent_days : Int) :
    compute_quadrant task tomorrow importance_threshold urgent_days ∈ quadLabels := by
  obtain ⟨i0, ti, dm, imp, due, st⟩ := task
  rcases due with _ | d
  · by_cases h1 : imp ≥ importance_threshold <;>
      simp [compute_quadrant, quadLabels, h1]
  · by_cases h1 : imp ≥ importance_threshold <;>
      by_cases h2 : d ≤ tomorrow + max (urgent_days - 1) 0 <;>
      simp [compute_quadrant, quadLabels, h1, h2]

theorem enrichedOf_snd_mem (todo : List Task) (tomorrow thr ud : Int) :
    ∀ x ∈ enrichedOf todo tomorrow thr ud, x.2.1 ∈ quadLabels := by
  intro x hx
  simp only [enrichedOf, List.mem_map] at hx
  obtain ⟨t, -, rfl⟩ := hx
  exact compute_quadrant_mem t tomorrow thr ud

/-- Exactly one of the four prefix tests holds for each quadrant label. -/
theorem label_prefix_cases (q : String) (hq : q ∈ quadLabels) :
    (strStartsWith q "Q1" = true ∧ strStartsWith q "Q2" = false ∧
      strStartsWith q "Q3" = false ∧ strStartsWith q "Q4" = false) ∨
    (strStartsWith q "Q1" = false ∧ strStartsWith q "Q2" = true ∧
      strStartsWith q "Q3" = false ∧ strStartsWith q "Q4" = false) ∨
    (strStartsWith q "Q1" = false ∧ strStartsWith q "Q2" = false ∧
      strStartsWith q "Q3" = true ∧ strStartsWith q "Q4" = false) ∨
    (strStartsWith q "Q1" = false ∧ strStartsWith q "Q2" = false ∧
      strStartsWith q "Q3" = false ∧ strStartsWith q "Q4" = true) := by
  simp only [quadLabels, List.mem_cons, List.not_mem_nil, or_false] at hq
  rcases hq with rfl | rfl | rfl | rfl
  · exact Or.inl (by decide)
  · exact Or.inr (Or.inl (by decide))
  · exact Or.inr (Or.inr (Or.inl (by decide)))
  · exact Or.inr (Or.inr (Or.inr (by decide)))

/-- Exactly one of the four label equalities holds for each quadrant label. -/
theorem label_eq_cases (q : String) (hq : q ∈ quadLabels) :
    (decide (q = "Q1 重要且急") = true ∧ decide (q = "Q2 重要不急") = false ∧
      decide (q = "Q3 不重要但急") = false ∧ decide (q = "Q4 不重要不急") = false) ∨
    (decide (q = "Q1 重要且急") = false ∧ decide (q = "Q2 重要不急") = true ∧
      decide (q = "Q3 不重要但急") = false ∧ decide (q = "Q4 不重要不急") = false) ∨
    (decide (q = "Q1 重要且急") = false ∧ decide (q = "Q2 重要不急") = false ∧
      decide (q = "Q3 不重要但急") = true ∧ decide (q = "Q4 不重要不急") = false) ∨
    (decide (q = "Q1 重要且急") = false ∧ decide (q = "Q2 重要不急") = false ∧
      decide (q = "Q3 不重要但急") = false ∧ decide (q = "Q4 不重要不急") = true) := by
  simp only [quadLabels, List.mem_cons, List.not_mem_nil, or_false] at hq
  rcases hq with rfl | rfl | rfl | rfl
  · exact Or.inl (by decide)
  · exact Or.inr (Or.inl (by decide))
  · exact Or.inr (Or.inr (Or.inl (by decide)))
  · exact Or.inr (Or.inr (Or.inr (by decide)))

/-- A list on which four boolean tests are exclusive and exhaustive is a
permutation of its four filters concatenated. -/
theorem filter_partition_four (p1 p2 p3 p4 : α → Bool) (l : List α)
    (h : ∀ x ∈ l,
      (p1 x = true ∧ p2 x = false ∧ p3 x = false ∧ p4 x = false) ∨
      (p1 x = false ∧ p2 x = true ∧ p3 x = false ∧ p4 x = false) ∨
      (p1 x = false ∧ p2 x = false ∧ p3 x = true ∧ p4 x = false) ∨
      (p1 x = false ∧ p2 x = false ∧ p3 x = false ∧ p4 x = true)) :
    (l.filter p1 ++ l.filter p2 ++ l.filter p3 ++ l.filter p4).Perm l := by
  induction l with
  | nil => simp
  | cons x xs ih =>
    have hx := h x (List.mem_cons_self x xs)
    have ihx := ih (fun y hy => h y (List.mem_cons_of_mem x hy))
    have ihx' : (xs.filter p1 ++ (xs.filter p2 ++ (xs.filter p3 ++ xs.filter p4))).Perm xs := by
      simpa [List.append_assoc] using ihx
    rcases hx with ⟨h1, h2, h3, h4⟩ | ⟨h1, h2, h3, h4⟩ | ⟨h1, h2, h3, h4⟩ | ⟨h1, h2, h3, h4⟩ <;>
      simp only [List.filter_cons, h1, h2, h3, h4, if_true, if_false, Bool.false_eq_true,
        List.cons_append]
    · exact ihx.cons x
    · have heq : xs.filter p1 ++ (x :: xs.filter p2) ++ xs.filter p3 ++ xs.filter p4 =
          xs.filter p1 ++ x :: (xs.filter p2 ++ (xs.filter p3 ++ xs.filter p4)) := by
        simp [List.append_assoc]
      rw [heq]
      exact List.perm_middle.trans ((by simpa [List.append_assoc] using ihx'
        : (xs.filter p1 ++ (xs.filter p2 ++ (xs.filter p3 ++ xs.filter p4))).Perm xs).cons x)
    · have heq : xs.filter p1 ++ xs.filter p2 ++ (x :: xs.filter p3) ++ xs.filter p4 =
          (xs.filter p1 ++ xs.filter p2) ++ x :: (xs.filter p3 ++ xs.filter p4) := by
        simp [List.append_assoc]
      rw [heq]
      refine List.perm_middle.trans (List.Perm.cons x ?_)
      simpa [List.append_assoc] using ihx
    · have heq : xs.filter p1 ++ xs.filter p2 ++ xs.filter p3 ++ (x :: xs.filter p4) =
          (xs.filter p1 ++ xs.filter p2 ++ xs.filter p3) ++ x :: xs.filter p4 := by
        simp [List.append_assoc]
      rw [heq]
      exact List.perm_middle.trans (List.Perm.cons x ihx)

theorem buckets_partition (enriched : List (Task × String × Int))
    (h : ∀ x ∈ enriched, x.2.1 ∈ quadLabels) :
    (bucket "Q1" enriched ++ bucket "Q2" enriched ++ bucket "Q3" enriched ++
      bucket "Q4" enriched).Perm enriched := by
  apply filter_partition_four
  intro x hx
  exact label_prefix_cases x.2.1 (h x hx)

theorem orderedOf_perm (enriched : List (Task × String × Int)) (ensure_q2 : Int)
    (h : ∀ x ∈ enriched, x.2.1 ∈ quadLabels) :
    (orderedOf enriched ensure_q2).Perm enriched := by
  have h2 : (q2sorted enriched).take (max 0 ensure_q2).toNat ++
      (q2sorted enriched).drop (max 0 ensure_q2).toNat = q2sorted enriched :=
    List.take_append_drop _ _
  have e1 : orderedOf enriched ensure_q2 =
      q1sorted enriched ++ q2sorted enriched ++ q3sorted enriched ++ q4sorted enriched := by
    unfold orderedOf
    rw [List.append_assoc (q1sorted enriched) ((q2sorted enriched).take (max 0 ensure_q2).toNat)
      ((q2sorted enriched).drop (max 0 ensure_q2).toNat), h2]
  rw [e1]
  have p1 : (q1sorted enriched ++ q2sorted enriched ++ q3sorted enriched ++
      q4sorted enriched).Perm (bucket "Q1" enriched ++ bucket "Q2" enriched ++
      bucket "Q3" enriched ++ bucket "Q4" enriched) :=
    (((sortByKey_perm _ _).append (sortByKey_perm _ _)).append
      (sortByKey_perm _ _)).append (sortByKey_perm _ _)
  exact p1.trans (buckets_partition enriched h)

theorem orderedOf_length (enriched : List (Task × String × Int)) (ensure_q2 : Int)
    (h : ∀ x ∈ enriched, x.2.1 ∈ quadLabels) :
    (orderedOf enriched ensure_q2).length = enriched.length :=
  (orderedOf_perm enriched ensure_q2 h).length_eq

theorem orderedOf_mem (enriched : List (Task × String × Int)) (ensure_q2 : Int)
    (h : ∀ x ∈ enriched, x.2.1 ∈ quadLabels) :
    ∀ x ∈ orderedOf enriched ensure_q2, x ∈ enriched := by
  intro x hx
  exact (orderedOf_perm enriched ensure_q2 h).mem_iff.1 hx

/-! The quadrant map of lines 169-171. -/

theorem quadAdd_fst (m : List (String × List Task)) (q : String) (t : Task) :
    (quadAdd m q t).map Prod.fst = m.map Prod.fst := by
  unfold quadAdd
  rw [List.map_map]
  apply List.map_congr_left
  intro p _
  by_cases h : p.1 = q <;> simp [h]

theorem quadMap_foldl_fst (l : List (Task × String × Int)) :
    ∀ m : List (String × List Task),
      (l.foldl (fun m x => quadAdd m x.2.1 x.1) m).map Prod.fst = m.map Prod.fst := by
  induction l with
  | nil => intro m; rfl
  | cons x xs ih =>
    intro m
    rw [List.foldl_cons, ih, quadAdd_fst]

theorem quadMapOf_fst (enriched : List (Task × String × Int)) :
    (quadMapOf enriched).map Prod.fst = quadLabels := by
  unfold quadMapOf
  rw [quadMap_foldl_fst]
  rfl

theorem quadMap_foldl_values (l : List (Task × String × Int)) :
    ∀ m : List (String × List Task),
      l.foldl (fun m x => quadAdd m x.2.1 x.1) m =
        m.map (fun p => (p.1, p.2 ++ (l.filter (fun x => decide (x.2.1 = p.1))).map (·.1))) := by
  induction l with
  | nil =>
    intro m
    simp
  | cons x xs ih =>
    intro m
    rw [List.foldl_cons, ih]
    unfold quadAdd
    rw [List.map_map]
    apply List.map_congr_left
    intro p _
    by_cases h : p.1 = x.2.1
    · simp only [Function.comp_apply, h, if_pos rfl, List.filter_cons,
        decide_eq_true_eq, if_pos h.symm]
      simp [List.append_assoc]
    · have h' : ¬ (x.2.1 = p.1) := fun hc => h hc.symm
      simp only [Function.comp_apply, if_neg h, List.filter_cons, decide_eq_true_eq,
        if_neg h']

theorem quadMapOf_eq (enriched : List (Task × String × Int)) :
    quadMapOf enriched = quadLabels.map
      (fun q => (q, (enriched.filter (fun x => decide (x.2.1 = q))).map (·.1))) := by
  unfold quadMapOf
  rw [quadMap_foldl_values]
  rfl

/-- The concatenation of the four quadrant-map value lists is a permutation
of the tasks that were classified. -/
theorem quadMapOf_join_perm (enriched : List (Task × String × Int))
    (h : ∀ x ∈ enriched, x.2.1 ∈ quadLabels) :
    ((quadMapOf enriched).map Prod.snd).flatten.Perm (enriched.map (·.1)) := by
  rw [quadMapOf_eq]
  have hjoin : ((quadLabels.map
      (fun q => (q, (enriched.filter (fun x => decide (x.2.1 = q))).map (·.1)))).map
        Prod.snd).flatten =
      ((enriched.filter (fun x => decide (x.2.1 = "Q1 重要且急")) ++
        enriched.filter (fun x => decide (x.2.1 = "Q2 重要不急")) ++
        enriched.filter (fun x => decide (x.2.1 = "Q3 不重要但急")) ++
        enriched.filter (fun x => decide (x.2.1 = "Q4 不重要不急"))).map (·.1)) := by
    simp [quadLabels, List.map_append, List.append_assoc]
  rw [hjoin]
  refine List.Perm.map _ ?_
  apply filter_partition_four
  intro x hx
  exact label_eq_cases x.2.1 (h x hx)

/-! Properties of the cursor walk and of one placement attempt. -/

theorem getElem_of_drop_cons {α : Type _} {l rtl : List α} {si : Nat} {a : α}
    (h : a :: rtl = l.drop si) (hlt : si < l.length) : l.get ⟨si, hlt⟩ = a := by
  have h1 : l[si]? = some a := by
    have h2 := List.getElem?_drop l si 0
    rw [← h] at h2
    simpa using h2.symm
  have h3 := List.getElem?_eq_getElem hlt
  rw [List.get_eq_getElem]
  exact (Option.some.inj (h3.symm.trans h1))

theorem clampCur_le (cur s : Int) : cur ≤ clampCur cur s ∧ s ≤ clampCur cur s := by
  unfold clampCur
  split <;> omega

theorem mcAux_spec (segments : List (Int × Int)) :
    ∀ (rest : List (Int × Int)) (si : Nat) (cur : Int),
      rest = segments.drop si → si ≤ segments.length →
      si ≤ (mcAux rest si cur).1 ∧ (mcAux rest si cur).1 ≤ segments.length ∧
      ((mcAux rest si cur).1 = si → cur ≤ (mcAux rest si cur).2) ∧
      ∀ h : (mcAux rest si cur).1 < segments.length,
        (segments.get ⟨(mcAux rest si cur).1, h⟩).1 ≤ (mcAux rest si cur).2 ∧
        (mcAux rest si cur).2 < (segments.get ⟨(mcAux rest si cur).1, h⟩).2 := by
  intro rest
  induction rest with
  | nil =>
    intro si cur hrest hsi
    simp only [mcAux]
    refine ⟨Nat.le_refl si, hsi, fun _ => le_refl cur, fun h => ?_⟩
    exact absurd (List.drop_eq_nil_iff.1 hrest.symm) (by omega)
  | cons hd rtl ih =>
    obtain ⟨s, e⟩ := hd
    intro si cur hrest hsi
    have hlt : si < segments.length := by
      rcases Nat.lt_or_ge si segments.length with h' | h'
      · exact h'
      · exact absurd (List.drop_eq_nil_iff.2 h') (by rw [← hrest]; simp)
    have hget : segments.get ⟨si, hlt⟩ = (s, e) := getElem_of_drop_cons hrest hlt
    have hrtl : rtl = segments.drop (si + 1) := by
      rw [← List.tail_drop segments si, ← hrest, List.tail_cons]
    rcases hmc : mcAux ((s, e) :: rtl) si cur with ⟨si', cur'⟩
    unfold mcAux at hmc
    by_cases hc : clampCur cur s < e
    · rw [if_pos hc] at hmc
      cases hmc
      refine ⟨Nat.le_refl _, hsi, fun _ => (clampCur_le cur s).1, fun h => ?_⟩
      rw [hget]
      exact ⟨(clampCur_le cur s).2, hc⟩
    · rw [if_neg hc] at hmc
      cases rtl with
      | nil =>
        have hmc2 : ((si + 1 : Nat), clampCur cur s) = (si', cur') := hmc
        cases hmc2
        refine ⟨Nat.le_succ si, by omega, fun habs => by omega, fun h => ?_⟩
        exact absurd (List.drop_eq_nil_iff.1 hrtl.symm) (by omega)
      | cons hd2 rest2 =>
        obtain ⟨s2, e2⟩ := hd2
        have hmc2 : mcAux ((s2, e2) :: rest2) (si + 1) s2 = (si', cur') := hmc
        have hih := ih (si + 1) s2 hrtl (by omega)
        rw [hmc2] at hih
        obtain ⟨h1, h2, _, h4⟩ := hih
        exact ⟨by omega, h2, fun habs => by omega, h4⟩

theorem placeLoop_spec (segments : List (Int × Int)) (dur : Int) :
    ∀ (rest : List (Int × Int)) (si : Nat) (cur : Int) rest' si' cur' res,
      rest = segments.drop si → si ≤ segments.length →
      placeLoop dur rest si cur = ((rest', si', cur'), res) →
      rest' = segments.drop si' ∧ si ≤ si' ∧ si' ≤ segments.length ∧
      (res = none → si' = segments.length) ∧
      ∀ p pe, res = some (p, pe) →
        pe = p + dur ∧ cur' = pe ∧
        ∃ h : si' < segments.length,
          (segments.get ⟨si', h⟩).1 ≤ p ∧ pe ≤ (segments.get ⟨si', h⟩).2 ∧
          (si' = si → cur ≤ p) := by
  intro rest
  induction rest with
  | nil =>
    intro si cur rest' si' cur' res hrest hsi hpl
    simp only [placeLoop] at hpl
    cases hpl
    have hlen : segments.length ≤ si := List.drop_eq_nil_iff.1 hrest.symm
    refine ⟨hrest, Nat.le_refl _, hsi, fun _ => by omega, fun p pe hps => ?_⟩
    simp at hps
  | cons hd rtl ih =>
    obtain ⟨s, e⟩ := hd
    intro si cur rest' si' cur' res hrest hsi hpl
    have hlt : si < segments.length := by
      rcases Nat.lt_or_ge si segments.length with h' | h'
      · exact h'
      · exact absurd (List.drop_eq_nil_iff.2 h') (by rw [← hrest]; simp)
    have hget : segments.get ⟨si, hlt⟩ = (s, e) := getElem_of_drop_cons hrest hlt
    have hrtl : rtl = segments.drop (si + 1) := by
      rw [← List.tail_drop segments si, ← hrest, List.tail_cons]
    unfold placeLoop at hpl
    by_cases hc : clampCur cur s < e
    · rw [if_pos hc] at hpl
      by_cases hf : dur ≤ minutes_between (clampCur cur s) e
      · rw [if_pos hf] at hpl
        cases hpl
        refine ⟨hrest, Nat.le_refl _, by omega, fun habs => by simp at habs,
          fun p pe hps => ?_⟩
        cases Option.some.inj hps
        refine ⟨rfl, rfl, hlt, ?_, ?_, fun _ => (clampCur_le cur s).1⟩
        · rw [hget]
          exact (clampCur_le cur s).2
        · rw [hget]
          simp only [minutes_between] at hf
          omega
      · rw [if_neg hf] at hpl
        obtain ⟨h1, h2, h3, h4, h5⟩ := ih (si + 1) (clampCur cur s)
          rest' si' cur' res hrtl (by omega) hpl
        refine ⟨h1, by omega, h3, h4, fun p pe hps => ?_⟩
        obtain ⟨g1, g2, g3, g4, g5, g6⟩ := h5 p pe hps
        exact ⟨g1, g2, g3, g4, g5, fun habs => by omega⟩
    · rw [if_neg hc] at hpl
      cases rtl with
      | nil =>
        have hpl2 : ((([] : List (Int × Int)), si + 1, clampCur cur s),
            (none : Option (Int × Int))) = ((rest', si', cur'), res) := hpl
        cases hpl2
        have hlen : segments.length ≤ si + 1 := List.drop_eq_nil_iff.1 hrtl.symm
        refine ⟨by rw [hrtl], Nat.le_succ _, by omega, fun _ => by omega,
          fun p pe hps => ?_⟩
        simp at hps
      | cons hd2 rest2 =>
        obtain ⟨s2, e2⟩ := hd2
        have hpl2 : placeLoop dur ((s2, e2) :: rest2) (si + 1) s2 =
            ((rest', si', cur'), res) := hpl
        obtain ⟨h1, h2, h3, h4, h5⟩ := ih (si + 1) s2 rest' si' cur' res hrtl
          (by omega) hpl2
        refine ⟨h1, by omega, h3, h4, fun p pe hps => ?_⟩
        obtain ⟨g1, g2, g3, g4, g5, g6⟩ := h5 p pe hps
        exact ⟨g1, g2, g3, g4, g5, fun habs => by omega⟩

/-- With chronologically ordered, valid segments and a cursor inside the
current segment, a successful placement never starts before the cursor. -/
theorem placeLoop_sorted (segments : List (Int × Int)) (dur : Int)
    (hsort : segments.Pairwise (fun a b => a.2 ≤ b.1))
    (hval : ∀ sg ∈ segments, sg.1 < sg.2) :
    ∀ (rest : List (Int × Int)) (si : Nat) (cur : Int) rest' si' cur' p pe,
      rest = segments.drop si → si ≤ segments.length →
      (∀ h : si < segments.length, cur ≤ (segments.get ⟨si, h⟩).2) →
      placeLoop dur rest si cur = ((rest', si', cur'), some (p, pe)) →
      cur ≤ p := by
  intro rest
  induction rest with
  | nil =>
    intro si cur rest' si' cur' p pe hrest hsi hcur hpl
    simp only [placeLoop] at hpl
    simp at hpl
  | cons hd rtl ih =>
    obtain ⟨s, e⟩ := hd
    intro si cur rest' si' cur' p pe hrest hsi hcur hpl
    have hlt : si < segments.length := by
      rcases Nat.lt_or_ge si segments.length with h' | h'
      · exact h'
      · exact absurd (List.drop_eq_nil_iff.2 h') (by rw [← hrest]; simp)
    have hget : segments.get ⟨si, hlt⟩ = (s, e) := getElem_of_drop_cons hrest hlt
    have hrtl : rtl = segments.drop (si + 1) := by
      rw [← List.tail_drop segments si, ← hrest, List.tail_cons]
    have hcur' : cur ≤ e := by
      have := hcur hlt
      rw [hget] at this
      exact this
    unfold placeLoop at hpl
    by_cases hc : clampCur cur s < e
    · rw [if_pos hc] at hpl
      by_cases hf : dur ≤ minutes_between (clampCur cur s) e
      · rw [if_pos hf] at hpl
        cases hpl
        exact (clampCur_le cur s).1
      · rw [if_neg hf] at hpl
        by_cases hlt2 : si + 1 < segments.length
        · have hsorted2 : (segments.get ⟨si, hlt⟩).2 ≤ (segments.get ⟨si + 1, hlt2⟩).1 := by
            have := List.pairwise_iff_getElem.1 hsort si (si + 1) hlt hlt2 (by omega)
            simpa [List.get_eq_getElem] using this
          have hval2 : (segments.get ⟨si + 1, hlt2⟩).1 < (segments.get ⟨si + 1, hlt2⟩).2 :=
            hval _ (List.get_mem segments (si + 1) hlt2)
          have hstep := ih (si + 1) (clampCur cur s) rest' si' cur' p pe hrtl (by omega)
            (fun h => by
              rw [hget] at hsorted2
              omega) hpl
          exact le_trans (clampCur_le cur s).1 hstep
        · have hstep := ih (si + 1) (clampCur cur s) rest' si' cur' p pe hrtl (by omega)
            (fun h => absurd h hlt2) hpl
          exact le_trans (clampCur_le cur s).1 hstep
    · rw [if_neg hc] at hpl
      cases rtl with
      | nil =>
        have hpl2 : ((([] : List (Int × Int)), si + 1, clampCur cur s),
            (none : Option (Int × Int))) = ((rest', si', cur'), some (p, pe)) := hpl
        simp at hpl2
      | cons hd2 rest2 =>
        obtain ⟨s2, e2⟩ := hd2
        have hpl2 : placeLoop dur ((s2, e2) :: rest2) (si + 1) s2 =
            ((rest', si', cur'), some (p, pe)) := hpl
        have hlt2 : si + 1 < segments.length := by
          rcases Nat.lt_or_ge (si + 1) segments.length with h' | h'
          · exact h'
          · exact absurd (List.drop_eq_nil_iff.2 h') (by rw [← hrtl]; simp)
        have hget2 : segments.get ⟨si + 1, hlt2⟩ = (s2, e2) := getElem_of_drop_cons hrtl hlt2
        have hsorted2 : (segments.get ⟨si, hlt⟩).2 ≤ (segments.get ⟨si + 1, hlt2⟩).1 := by
          have := List.pairwise_iff_getElem.1 hsort si (si + 1) hlt hlt2 (by omega)
          simpa [List.get_eq_getElem] using this
        have hval2 : s2 < e2 := by
          have := hval _ (List.get_mem segments (si + 1) hlt2)
          rw [hget2] at this
          exact this
        have hstep := ih (si + 1) s2 rest' si' cur' p pe hrtl (by omega)
          (fun h => by rw [hget2]; omega) hpl2
        rw [hget, hget2] at hsorted2
        omega

/-! Arithmetic facts about the schedule budget of line 81. -/

theorem validSegments_valid (tomorrow : Int) (blocks : List (Int × Int)) :
    ∀ sg ∈ validSegments tomorrow blocks, sg.1 < sg.2 := by
  intro sg hsg
  unfold validSegments at hsg
  rw [List.mem_filter] at hsg
  simpa using hsg.2

theorem totalAvailable_nonneg (segments : List (Int × Int))
    (hval : ∀ sg ∈ segments, sg.1 < sg.2) :
    0 ≤ (segments.map (fun se => minutes_between se.1 se.2)).sum := by
  apply List.sum_nonneg
  intro x hx
  rw [List.mem_map] at hx
  obtain ⟨sg, hsg, rfl⟩ := hx
  have := hval sg hsg
  simp only [minutes_between]
  omega

theorem schedLimitOf_nonneg (total : Int) (br : ℚ) (h : 0 ≤ total) :
    0 ≤ schedLimitOf total br := by
  unfold schedLimitOf
  have h1 : (0 : ℚ) ≤ (total : ℚ) := by exact_mod_cast h
  have h2 : max 0 (min br 0.8) ≤ (0.8 : ℚ) := max_le (by norm_num) (min_le_right _ _)
  have h3 : (0 : ℚ) ≤ 1 - max 0 (min br 0.8) := by linarith
  exact Int.le_floor.mpr (by exact_mod_cast mul_nonneg h1 h3)

theorem schedLimitOf_le_total (total : Int) (br : ℚ) (h : 0 ≤ total) :
    schedLimitOf total br ≤ total := by
  unfold schedLimitOf
  have h1 : (0 : ℚ) ≤ (total : ℚ) := by exact_mod_cast h
  have h0 : (0 : ℚ) ≤ max 0 (min br 0.8) := le_max_left 0 _
  have h2 : (total : ℚ) * (1 - max 0 (min br 0.8)) ≤ (total : ℚ) := by nlinarith
  have h3 : (⌊(total : ℚ) * (1 - max 0 (min br 0.8))⌋ : ℚ) ≤ (total : ℚ) :=
    le_trans (Int.floor_le _) h2
  exact_mod_cast h3

/-! Invariants of the placement loop of lines 126-166, by induction on the
ordered task list. -/

theorem foldl_len (segments : List (Int × Int)) (lim : Int) :
    ∀ (l : List (Task × String × Int)) (st : LoopState),
      (l.foldl (scheduleStep segments lim) st).schedule.length +
        (l.foldl (scheduleStep segments lim) st).overflow.length =
      st.schedule.length + st.overflow.length + l.length := by
  intro l
  induction l with
  | nil => intro st; simp
  | cons x xs ih =>
    intro st
    rw [List.foldl_cons, ih]
    by_cases hb : lim < st.used + x.1.duration_min
    · have hstep : scheduleStep segments lim st x =
          { st with overflow := st.overflow ++ [x.1] } := by
        unfold scheduleStep; rw [if_pos hb]
      rw [hstep]
      simp
      omega
    · rcases hpl : placeLoop x.1.duration_min (segments.drop st.seg_idx) st.seg_idx
        st.cursor with ⟨⟨r1, si', cur'⟩, res⟩
      cases res with
      | some pe =>
        have hstep : scheduleStep segments lim st x =
            { used := st.used + x.1.duration_min, seg_idx := si', cursor := cur',
              schedule := st.schedule ++
                [{ start := pe.1, stop := pe.2, title := x.1.title,
                   quadrant := x.2.1, task_id := x.1.id }],
              overflow := st.overflow } := by
          unfold scheduleStep; rw [if_neg hb, hpl]
        rw [hstep]
        simp
        omega
      | none =>
        have hstep : scheduleStep segments lim st x =
            { st with seg_idx := si', cursor := cur', overflow := st.overflow ++ [x.1] } := by
          unfold scheduleStep; rw [if_neg hb, hpl]
        rw [hstep]
        simp
        omega

theorem foldl_ids (segments : List (Int × Int)) (lim : Int) :
    ∀ (l : List (Task × String × Int)) (st : LoopState),
      (((l.foldl (scheduleStep segments lim) st).schedule.map (fun en => en.task_id) :
          List Nat) : Multiset Nat) +
        (((l.foldl (scheduleStep segments lim) st).overflow.map (fun t => t.id) :
          List Nat) : Multiset Nat) =
      ((st.schedule.map (fun en => en.task_id) : List Nat) : Multiset Nat) +
        ((st.overflow.map (fun t => t.id) : List Nat) : Multiset Nat) +
        ((l.map (fun x => x.1.id) : List Nat) : Multiset Nat) := by
  intro l
  induction l with
  | nil => intro st; simp
  | cons x xs ih =>
    intro st
    rw [List.foldl_cons, ih]
    by_cases hb : lim < st.used + x.1.duration_min
    · have hstep : scheduleStep segments lim st x =
          { st with overflow := st.overflow ++ [x.1] } := by
        unfold scheduleStep; rw [if_pos hb]
      rw [hstep]
      simp only [List.map_append, List.map_cons, List.map_nil, ← Multiset.coe_add,
        Multiset.coe_singleton, ← Multiset.cons_coe, ← Multiset.singleton_add]
      abel
    · rcases hpl : placeLoop x.1.duration_min (segments.drop st.seg_idx) st.seg_idx
        st.cursor with ⟨⟨r1, si', cur'⟩, res⟩
      cases res with
      | some pe =>
        have hstep : scheduleStep segments lim st x =
            { used := st.used + x.1.duration_min, seg_idx := si', cursor := cur',
              schedule := st.schedule ++
                [{ start := pe.1, stop := pe.2, title := x.1.title,
                   quadrant := x.2.1, task_id := x.1.id }],
              overflow := st.overflow } := by
          unfold scheduleStep; rw [if_neg hb, hpl]
        rw [hstep]
        simp only [List.map_append, List.map_cons, List.map_nil, ← Multiset.coe_add,
          Multiset.coe_singleton, ← Multiset.cons_coe, ← Multiset.singleton_add]
        abel
      | none =>
        have hstep : scheduleStep segments lim st x =
            { st with seg_idx := si', cursor := cur', overflow := st.overflow ++ [x.1] } := by
          unfold scheduleStep; rw [if_neg hb, hpl]
        rw [hstep]
        simp only [List.map_append, List.map_cons, List.map_nil, ← Multiset.coe_add,
          Multiset.coe_singleton, ← Multiset.cons_coe, ← Multiset.singleton_add]
        abel

theorem foldl_budget (segments : List (Int × Int)) (lim : Int) (todo : List Task)
    (hdur : ∀ t ∈ todo, 0 < t.duration_min) :
    ∀ (l : List (Task × String × Int)) (st : LoopState),
      (∀ x ∈ l, x.1 ∈ todo) →
      st.seg_idx ≤ segments.length →
      0 ≤ st.used → st.used ≤ lim →
      st.used = (st.schedule.map (fun en => en.stop - en.start)).sum →
      (∀ en ∈ st.schedule, ∃ t, t ∈ todo ∧ en.task_id = t.id ∧
        en.stop - en.start = t.duration_min) →
      (l.foldl (scheduleStep segments lim) st).seg_idx ≤ segments.length ∧
      0 ≤ (l.foldl (scheduleStep segments lim) st).used ∧
      (l.foldl (scheduleStep segments lim) st).used ≤ lim ∧
      (l.foldl (scheduleStep segments lim) st).used =
        ((l.foldl (scheduleStep segments lim) st).schedule.map
          (fun en => en.stop - en.start)).sum ∧
      ∀ en ∈ (l.foldl (scheduleStep segments lim) st).schedule, ∃ t, t ∈ todo ∧
        en.task_id = t.id ∧ en.stop - en.start = t.duration_min := by
  intro l
  induction l with
  | nil =>
    intro st _ hsi hu0 hul hsum hen
    exact ⟨hsi, hu0, hul, hsum, hen⟩
  | cons x xs ih =>
    intro st hmem hsi hu0 hul hsum hen
    rw [List.foldl_cons]
    have hmem' : ∀ y ∈ xs, y.1 ∈ todo := fun y hy => hmem y (List.mem_cons_of_mem x hy)
    by_cases hb : lim < st.used + x.1.duration_min
    · have hstep : scheduleStep segments lim st x =
          { st with overflow := st.overflow ++ [x.1] } := by
        unfold scheduleStep; rw [if_pos hb]
      rw [hstep]
      exact ih _ hmem' hsi hu0 hul hsum hen
    · rcases hpl : placeLoop x.1.duration_min (segments.drop st.seg_idx) st.seg_idx
        st.cursor with ⟨⟨r1, si', cur'⟩, res⟩
      have hspec := placeLoop_spec segments x.1.duration_min (segments.drop st.seg_idx)
        st.seg_idx st.cursor r1 si' cur' res rfl hsi hpl
      cases res with
      | some pe =>
        obtain ⟨hpe, hcur', hin⟩ := hspec.2.2.2.2 pe.1 pe.2 rfl
        have hstep : scheduleStep segments lim st x =
            { used := st.used + x.1.duration_min, seg_idx := si', cursor := cur',
              schedule := st.schedule ++
                [{ start := pe.1, stop := pe.2, title := x.1.title,
                   quadrant := x.2.1, task_id := x.1.id }],
              overflow := st.overflow } := by
          unfold scheduleStep; rw [if_neg hb, hpl]
        rw [hstep]
        have hdx : 0 < x.1.duration_min := hdur x.1 (hmem x (List.mem_cons_self x xs))
        apply ih
        · exact hmem'
        · exact hspec.2.2.1
        · simp only []
          omega
        · simp only []
          omega
        · simp only [List.map_append, List.map_cons, List.map_nil, List.sum_append,
            List.sum_cons, List.sum_nil]
          omega
        · intro en hen2
          rcases List.mem_append.1 hen2 with hold | hnew
          · exact hen en hold
          · rcases List.mem_cons.1 hnew with rfl | habs
            · exact ⟨x.1, hmem x (List.mem_cons_self x xs), rfl, by simp only []; omega⟩
            · cases habs
      | none =>
        have hstep : scheduleStep segments lim st x =
            { st with seg_idx := si', cursor := cur', overflow := st.overflow ++ [x.1] } := by
          unfold scheduleStep; rw [if_neg hb, hpl]
        rw [hstep]
        exact ih _ hmem' hspec.2.2.1 hu0 hul hsum hen

theorem pairwise_get {α : Type _} {R : α → α → Prop} {l : List α}
    (h : l.Pairwise R) {i j : Nat} (hi : i < l.length) (hj : j < l.length)
    (hij : i < j) : R (l.get ⟨i, hi⟩) (l.get ⟨j, hj⟩) := by
  have := List.pairwise_iff_getElem.1 h i j hi hj hij
  simpa [List.get_eq_getElem] using this

/-- With pairwise-disjoint valid segments, every placed entry stays inside
one segment and no two placed entries overlap. -/
theorem foldl_disjoint (segments : List (Int × Int)) (lim : Int)
    (hdisj : segments.Pairwise (fun a b => a.2 ≤ b.1 ∨ b.2 ≤ a.1)) (todo : List Task)
    (hdur : ∀ t ∈ todo, 0 < t.duration_min) :
    ∀ (l : List (Task × String × Int)) (st : LoopState),
      (∀ x ∈ l, x.1 ∈ todo) →
      st.seg_idx ≤ segments.length →
      (∀ en ∈ st.schedule, ∃ j, ∃ hj : j < segments.length,
        (segments.get ⟨j, hj⟩).1 ≤ en.start ∧ en.stop ≤ (segments.get ⟨j, hj⟩).2 ∧
        j ≤ st.seg_idx ∧ (j = st.seg_idx → en.stop ≤ st.cursor)) →
      st.schedule.Pairwise (fun a b => a.stop ≤ b.start ∨ b.stop ≤ a.start) →
      (l.foldl (scheduleStep segments lim) st).seg_idx ≤ segments.length ∧
      (∀ en ∈ (l.foldl (scheduleStep segments lim) st).schedule,
        ∃ j, ∃ hj : j < segments.length,
          (segments.get ⟨j, hj⟩).1 ≤ en.start ∧ en.stop ≤ (segments.get ⟨j, hj⟩).2 ∧
          j ≤ (l.foldl (scheduleStep segments lim) st).seg_idx ∧
          (j = (l.foldl (scheduleStep segments lim) st).seg_idx →
            en.stop ≤ (l.foldl (scheduleStep segments lim) st).cursor)) ∧
      (l.foldl (scheduleStep segments lim) st).schedule.Pairwise
        (fun a b => a.stop ≤ b.start ∨ b.stop ≤ a.start) := by
  intro l
  induction l with
  | nil =>
    intro st _ hsi hinv hpw
    exact ⟨hsi, hinv, hpw⟩
  | cons x xs ih =>
    intro st hmem hsi hinv hpw
    rw [List.foldl_cons]
    have hmem' : ∀ y ∈ xs, y.1 ∈ todo := fun y hy => hmem y (List.mem_cons_of_mem x hy)
    by_cases hb : lim < st.used + x.1.duration_min
    · have hstep : scheduleStep segments lim st x =
          { st with overflow := st.overflow ++ [x.1] } := by
        unfold scheduleStep; rw [if_pos hb]
      rw [hstep]
      exact ih _ hmem' hsi hinv hpw
    · rcases hpl : placeLoop x.1.duration_min (segments.drop st.seg_idx) st.seg_idx
        st.cursor with ⟨⟨r1, si', cur'⟩, res⟩
      have hspec := placeLoop_spec segments x.1.duration_min (segments.drop st.seg_idx)
        st.seg_idx st.cursor r1 si' cur' res rfl hsi hpl
      cases res with
      | some pe =>
        obtain ⟨hpe, hcur', hsilt, hs1, hs2, hs3⟩ := hspec.2.2.2.2 pe.1 pe.2 rfl
        have hdx : 0 < x.1.duration_min := hdur x.1 (hmem x (List.mem_cons_self x xs))
        have hstep : scheduleStep segments lim st x =
            { used := st.used + x.1.duration_min, seg_idx := si', cursor := cur',
              schedule := st.schedule ++
                [{ start := pe.1, stop := pe.2, title := x.1.title,
                   quadrant := x.2.1, task_id := x.1.id }],
              overflow := st.overflow } := by
          unfold scheduleStep; rw [if_neg hb, hpl]
        rw [hstep]
        apply ih _ hmem' hspec.2.2.1
        · dsimp only
          intro en hen2
          rcases List.mem_append.1 hen2 with hold | hnew
          · obtain ⟨j, hj, hb1, hb2, hb3, hb4⟩ := hinv en hold
            refine ⟨j, hj, hb1, hb2, le_trans hb3 hspec.2.1, fun hj2 => ?_⟩
            have hjsi : j = st.seg_idx := by
              have := hspec.2.1
              omega
            have h1 := hb4 hjsi
            have h2 := hs3 (by omega)
            omega
          · rcases List.mem_cons.1 hnew with rfl | habs
            · refine ⟨si', hsilt, ?_, ?_, le_refl _, fun _ => ?_⟩ <;> dsimp only <;> omega
            · cases habs
        · dsimp only
          rw [List.pairwise_append]
          refine ⟨hpw, by simp, ?_⟩
          intro a hold b hnew
          rcases List.mem_cons.1 hnew with rfl | habs
          · obtain ⟨j, hj, hb1, hb2, hb3, hb4⟩ := hinv a hold
            rcases Nat.lt_or_ge j si' with hjlt | hjge
            · rcases pairwise_get hdisj hj hsilt hjlt with hd | hd
              · left
                dsimp only
                omega
              · right
                dsimp only
                omega
            · have hjsi : j = st.seg_idx ∧ si' = st.seg_idx := by
                have h2 := hspec.2.1
                omega
              have h1 := hb4 hjsi.1
              have h2 := hs3 hjsi.2
              left
              dsimp only
              omega
          · cases habs
      | none =>
        have hstep : scheduleStep segments lim st x =
            { st with seg_idx := si', cursor := cur', overflow := st.overflow ++ [x.1] } := by
          unfold scheduleStep; rw [if_neg hb, hpl]
        rw [hstep]
        have hlen : si' = segments.length := hspec.2.2.2.1 rfl
        apply ih _ hmem' hspec.2.2.1
        · dsimp only
          intro en hen2
          obtain ⟨j, hj, hb1, hb2, hb3, hb4⟩ := hinv en hen2
          exact ⟨j, hj, hb1, hb2, le_trans hb3 hspec.2.1, fun hj2 => absurd hj (by omega)⟩
        · exact hpw

/-- With chronologically ordered valid segments and positive durations,
the placed entries appear in chronological order. -/
theorem foldl_chrono (segments : List (Int × Int)) (lim : Int)
    (hsort : segments.Pairwise (fun a b => a.2 ≤ b.1))
    (hval : ∀ sg ∈ segments, sg.1 < sg.2) (todo : List Task)
    (hdur : ∀ t ∈ todo, 0 < t.duration_min) :
    ∀ (l : List (Task × String × Int)) (st : LoopState),
      (∀ x ∈ l, x.1 ∈ todo) →
      st.seg_idx ≤ segments.length →
      (∀ h : st.seg_idx < segments.length,
        st.cursor ≤ (segments.get ⟨st.seg_idx, h⟩).2) →
      (∀ en ∈ st.schedule, st.seg_idx < segments.length → en.stop ≤ st.cursor) →
      st.schedule.Pairwise (fun a b => a.stop ≤ b.start) →
      (l.foldl (scheduleStep segments lim) st).seg_idx ≤ segments.length ∧
      (∀ h : (l.foldl (scheduleStep segments lim) st).seg_idx < segments.length,
        (l.foldl (scheduleStep segments lim) st).cursor ≤
          (segments.get ⟨(l.foldl (scheduleStep segments lim) st).seg_idx, h⟩).2) ∧
      (∀ en ∈ (l.foldl (scheduleStep segments lim) st).schedule,
        (l.foldl (scheduleStep segments lim) st).seg_idx < segments.length →
          en.stop ≤ (l.foldl (scheduleStep segments lim) st).cursor) ∧
      (l.foldl (scheduleStep segments lim) st).schedule.Pairwise
        (fun a b => a.stop ≤ b.start) := by
  intro l
  induction l with
  | nil =>
    intro st _ hsi hcur hstop hpw
    exact ⟨hsi, hcur, hstop, hpw⟩
  | cons x xs ih =>
    intro st hmem hsi hcur hstop hpw
    rw [List.foldl_cons]
    have hmem' : ∀ y ∈ xs, y.1 ∈ todo := fun y hy => hmem y (List.mem_cons_of_mem x hy)
    by_cases hb : lim < st.used + x.1.duration_min
    · have hstep : scheduleStep segments lim st x =
          { st with overflow := st.overflow ++ [x.1] } := by
        unfold scheduleStep; rw [if_pos hb]
      rw [hstep]
      exact ih _ hmem' hsi hcur hstop hpw
    · rcases hpl : placeLoop x.1.duration_min (segments.drop st.seg_idx) st.seg_idx
        st.cursor with ⟨⟨r1, si', cur'⟩, res⟩
      have hspec := placeLoop_spec segments x.1.duration_min (segments.drop st.seg_idx)
        st.seg_idx st.cursor r1 si' cur' res rfl hsi hpl
      cases res with
      | some pe =>
        obtain ⟨hpe, hcur', hsilt, hs1, hs2, hs3⟩ := hspec.2.2.2.2 pe.1 pe.2 rfl
        have hdx : 0 < x.1.duration_min := hdur x.1 (hmem x (List.mem_cons_self x xs))
        have hp : st.cursor ≤ pe.1 :=
          placeLoop_sorted segments x.1.duration_min hsort hval (segments.drop st.seg_idx)
            st.seg_idx st.cursor r1 si' cur' pe.1 pe.2 rfl hsi hcur
            (by rw [← hpl])
        have hsi_lt : st.seg_idx < segments.length := by
          rcases Nat.lt_or_ge st.seg_idx segments.length with h' | h'
          · exact h'
          · rw [List.drop_eq_nil_iff.2 h'] at hpl
            simp only [placeLoop] at hpl
            cases hpl
        have hstep : scheduleStep segments lim st x =
            { used := st.used + x.1.duration_min, seg_idx := si', cursor := cur',
              schedule := st.schedule ++
                [{ start := pe.1, stop := pe.2, title := x.1.title,
                   quadrant := x.2.1, task_id := x.1.id }],
              overflow := st.overflow } := by
          unfold scheduleStep; rw [if_neg hb, hpl]
        rw [hstep]
        apply ih _ hmem' hspec.2.2.1
        · dsimp only
          intro h
          omega
        · dsimp only
          intro en hen2 _
          rcases List.mem_append.1 hen2 with hold | hnew
          · have h1 := hstop en hold hsi_lt
            omega
          · rcases List.mem_cons.1 hnew with rfl | habs
            · dsimp only
              omega
            · cases habs
        · dsimp only
          rw [List.pairwise_append]
          refine ⟨hpw, by simp, ?_⟩
          intro a hold b hnew
          rcases List.mem_cons.1 hnew with rfl | habs
          · have h1 := hstop a hold hsi_lt
            dsimp only
            omega
          · cases habs
      | none =>
        have hstep : scheduleStep segments lim st x =
            { st with seg_idx := si', cursor := cur', overflow := st.overflow ++ [x.1] } := by
          unfold scheduleStep; rw [if_neg hb, hpl]
        rw [hstep]
        have hlen : si' = segments.length := hspec.2.2.2.1 rfl
        apply ih _ hmem' hspec.2.2.1
        · dsimp only
          intro h
          omega
        · dsimp only
          intro en hen2 h
          omega
        · exact hpw

/-! Branch equations for generate_schedule and properties of its inputs. -/

theorem generate_schedule_empty (tasks : List Task) (tomorrow : Int)
    (blocks : List (Int × Int)) (thr ud : Int) (br : ℚ) (k : Int)
    (h : todoOf tasks = []) :
    generate_schedule tasks tomorrow blocks thr ud br k = ([], [], none, []) := by
  unfold generate_schedule
  rw [if_pos (by simp [h])]

theorem generate_schedule_noseg (tasks : List Task) (tomorrow : Int)
    (blocks : List (Int × Int)) (thr ud : Int) (br : ℚ) (k : Int)
    (h1 : todoOf tasks ≠ []) (h2 : validSegments tomorrow blocks = []) :
    generate_schedule tasks tomorrow blocks thr ud br k = ([], [], none, todoOf tasks) := by
  unfold generate_schedule
  rw [if_neg (by simp [List.isEmpty_iff, h1]), dif_pos h2]

theorem generate_schedule_main (tasks : List Task) (tomorrow : Int)
    (blocks : List (Int × Int)) (thr ud : Int) (br : ℚ) (k : Int)
    (h1 : todoOf tasks ≠ []) (hseg : validSegments tomorrow blocks ≠ []) :
    generate_schedule tasks tomorrow blocks thr ud br k =
      mainResult tasks tomorrow blocks thr ud br k hseg := by
  unfold generate_schedule
  rw [if_neg (by simp [List.isEmpty_iff, h1]), dif_neg hseg]

theorem enrichedOf_labels (tasks : List Task) (tomorrow thr ud : Int) :
    ∀ x ∈ enrichedOf (todoOf tasks) tomorrow thr ud, x.2.1 ∈ quadLabels :=
  enrichedOf_snd_mem (todoOf tasks) tomorrow thr ud

theorem orderedOf_fst_mem (tasks : List Task) (tomorrow thr ud k : Int) :
    ∀ x ∈ orderedOf (enrichedOf (todoOf tasks) tomorrow thr ud) k, x.1 ∈ todoOf tasks := by
  intro x hx
  have h1 := orderedOf_mem _ k (enrichedOf_labels tasks tomorrow thr ud) x hx
  unfold enrichedOf at h1
  rw [List.mem_map] at h1
  obtain ⟨t, ht, rfl⟩ := h1
  exact ht

theorem todoOf_sub (tasks : List Task) : ∀ t ∈ todoOf tasks, t ∈ tasks := by
  intro t ht
  unfold todoOf at ht
  exact (List.mem_filter.1 ht).1

theorem initState_spec (segments : List (Int × Int)) (hseg : segments ≠ []) :
    (initState segments hseg).seg_idx ≤ segments.length ∧
    (∀ h : (initState segments hseg).seg_idx < segments.length,
      (initState segments hseg).cursor ≤
        (segments.get ⟨(initState segments hseg).seg_idx, h⟩).2) := by
  have hspec := mcAux_spec segments (segments.drop 0) 0 ((segments.head hseg).1) rfl
    (Nat.zero_le _)
  unfold initState move_cursor
  refine ⟨hspec.2.1, fun h => ?_⟩
  exact le_of_lt ((hspec.2.2.2 h).2)

/-! Claim C7. -/

/-- C7 (confirmed): generate_schedule is total and degrades to empty or
partial results: with no todo task it returns ([], empty map, empty meta,
[]) for every segment list and parameters; with todo tasks but no valid
segment (every block has end <= start) it returns the todo tasks as
overflow with empty schedule, empty quadrant map and empty meta. -/
theorem C7_never_raises (tasks : List Task) (tomorrow : Int) (blocks : List (Int × Int))
    (thr ud : Int) (br : ℚ) (k : Int) :
    (todoOf tasks = [] →
      generate_schedule tasks tomorrow blocks thr ud br k = ([], [], none, [])) ∧
    (todoOf tasks ≠ [] → validSegments tomorrow blocks = [] →
      generate_schedule tasks tomorrow blocks thr ud br k = ([], [], none, todoOf tasks)) :=
  ⟨fun h => generate_schedule_empty tasks tomorrow blocks thr ud br k h,
   fun h1 h2 => generate_schedule_noseg tasks tomorrow blocks thr ud br k h1 h2⟩

/-- Witness for C7 at a concrete input with a todo task and no block. -/
theorem C7_witness :
    generate_schedule [⟨1, "a", 30, 5, none, "todo"⟩] 0 [] 4 1 (1/5) 1 =
      ([], [], none, [⟨1, "a", 30, 5, none, "todo"⟩]) :=
  (C7_never_raises [⟨1, "a", 30, 5, none, "todo"⟩] 0 [] 4 1 (1/5) 1).2
    (by decide) (by decide)

/-! Claim C3. -/

/-- C3 (confirmed): compute_quadrant always returns exactly one of the four
quadrant labels, following the truth table on important :=
(importance >= importanceThreshold) and urgent := (due present and
due <= referenceDate + max(urgentDays - 1, 0) days); a task with no due
date is never urgent. -/
theorem C3_truth_table (task : Task) (tomorrow thr ud : Int) :
    compute_quadrant task tomorrow thr ud ∈ quadLabels ∧
    ((thr ≤ task.importance ∧ (∃ d, task.due = some d ∧ d ≤ tomorrow + max (ud - 1) 0)) →
      compute_quadrant task tomorrow thr ud = "Q1 重要且急") ∧
    ((thr ≤ task.importance ∧ ¬(∃ d, task.due = some d ∧ d ≤ tomorrow + max (ud - 1) 0)) →
      compute_quadrant task tomorrow thr ud = "Q2 重要不急") ∧
    ((¬(thr ≤ task.importance) ∧ (∃ d, task.due = some d ∧ d ≤ tomorrow + max (ud - 1) 0)) →
      compute_quadrant task tomorrow thr ud = "Q3 不重要但急") ∧
    ((¬(thr ≤ task.importance) ∧ ¬(∃ d, task.due = some d ∧ d ≤ tomorrow + max (ud - 1) 0)) →
      compute_quadrant task tomorrow thr ud = "Q4 不重要不急") ∧
    (task.due = none → ¬(∃ d, task.due = some d ∧ d ≤ tomorrow + max (ud - 1) 0)) := by
  refine ⟨compute_quadrant_mem task tomorrow thr ud, ?_, ?_, ?_, ?_, ?_⟩
  all_goals obtain ⟨i0, ti, dm, imp, due, st⟩ := task
  all_goals rcases due with _ | d
  all_goals simp only [compute_quadrant]
  all_goals by_cases h1 : imp ≥ thr
  all_goals first
    | (by_cases h2 : d ≤ tomorrow + max (ud - 1) 0 <;> simp [h1, h2])
    | simp [h1]

/-- Witness for C3 at a concrete important urgent task. -/
theorem C3_witness :
    compute_quadrant ⟨1, "x", 30, 5, some 0, "todo"⟩ 0 4 1 = "Q1 重要且急" :=
  (C3_truth_table ⟨1, "x", 30, 5, some 0, "todo"⟩ 0 4 1).2.1
    ⟨by decide, 0, rfl, by decide⟩

/-! Claim C8. -/

/-- C8 (confirmed): the output of generate_schedule does not depend on
ensure_q2, because the split of the sorted Q2 bucket into its first
max(0, ensure_q2) elements and the remainder is concatenated back in
order, giving the same placement sequence for every value. -/
theorem C8_ensure_q2_irrelevant (tasks : List Task) (tomorrow : Int)
    (blocks : List (Int × Int)) (thr ud : Int) (br : ℚ) (k k' : Int) :
    generate_schedule tasks tomorrow blocks thr ud br k =
      generate_schedule tasks tomorrow blocks thr ud br k' := by
  have horder : ∀ (e : List (Task × String × Int)) (m : Int), orderedOf e m =
      q1sorted e ++ q2sorted e ++ q3sorted e ++ q4sorted e := by
    intro e m
    unfold orderedOf
    rw [List.append_assoc (q1sorted e), List.take_append_drop]
  simp only [generate_schedule, mainResult, finalState, horder]

/-! Claim C10. -/

/-- C10 (confirmed): whenever generate_schedule proceeds past its two
early returns, the quadrant map has exactly the four quadrant labels as
keys, in order, each mapped to a possibly empty list. -/
theorem C10_quadmap_keys (tasks : List Task) (tomorrow : Int)
    (blocks : List (Int × Int)) (thr ud : Int) (br : ℚ) (k : Int)
    (h1 : todoOf tasks ≠ []) (h2 : validSegments tomorrow blocks ≠ []) :
    ((generate_schedule tasks tomorrow blocks thr ud br k).2.1).map Prod.fst =
      quadLabels := by
  rw [generate_schedule_main tasks tomorrow blocks thr ud br k h1 h2]
  unfold mainResult
  exact quadMapOf_fst _

/-- Witness for C10 at a concrete input. -/
theorem C10_witness :
    ((generate_schedule [⟨1, "a", 30, 5, none, "todo"⟩] 0 [(540, 600)] 4 1 (1/5) 1).2.1).map
      Prod.fst = quadLabels :=
  C10_quadmap_keys [⟨1, "a", 30, 5, none, "todo"⟩] 0 [(540, 600)] 4 1 (1/5) 1
    (by decide) (by decide)

/-! Claim C6. -/

/-- C6 (confirmed): placement is attempted in the order
Q1 ++ Q2_early ++ Q2_rest ++ Q3 ++ Q4, where Q2_early is the first
max(0, ensureQ2Count) elements of the sorted Q2 bucket; each sorted bucket
is a permutation of its quadrant bucket, the Q1, Q2, Q3 buckets are
ordered ascending by (due_key, -importance), the Q4 bucket ascending by
(-importance, due_key), and due_key is the due date's ordinal when present
and the sentinel 10^9 otherwise (so tasks without a deadline sort last
among realistic dates). -/
theorem C6_ordering (todo : List Task) (tomorrow thr ud k : Int) :
    orderedOf (enrichedOf todo tomorrow thr ud) k =
      q1sorted (enrichedOf todo tomorrow thr ud)
        ++ (q2sorted (enrichedOf todo tomorrow thr ud)).take (max 0 k).toNat
        ++ (q2sorted (enrichedOf todo tomorrow thr ud)).drop (max 0 k).toNat
        ++ q3sorted (enrichedOf todo tomorrow thr ud)
        ++ q4sorted (enrichedOf todo tomorrow thr ud) ∧
    (q1sorted (enrichedOf todo tomorrow thr ud)).Perm
      (bucket "Q1" (enrichedOf todo tomorrow thr ud)) ∧
    (q2sorted (enrichedOf todo tomorrow thr ud)).Perm
      (bucket "Q2" (enrichedOf todo tomorrow thr ud)) ∧
    (q3sorted (enrichedOf todo tomorrow thr ud)).Perm
      (bucket "Q3" (enrichedOf todo tomorrow thr ud)) ∧
    (q4sorted (enrichedOf todo tomorrow thr ud)).Perm
      (bucket "Q4" (enrichedOf todo tomorrow thr ud)) ∧
    (q1sorted (enrichedOf todo tomorrow thr ud)).Pairwise
      (fun a b => a.2.2 < b.2.2 ∨ (a.2.2 = b.2.2 ∧ b.1.importance ≤ a.1.importance)) ∧
    (q2sorted (enrichedOf todo tomorrow thr ud)).Pairwise
      (fun a b => a.2.2 < b.2.2 ∨ (a.2.2 = b.2.2 ∧ b.1.importance ≤ a.1.importance)) ∧
    (q3sorted (enrichedOf todo tomorrow thr ud)).Pairwise
      (fun a b => a.2.2 < b.2.2 ∨ (a.2.2 = b.2.2 ∧ b.1.importance ≤ a.1.importance)) ∧
    (q4sorted (enrichedOf todo tomorrow thr ud)).Pairwise
      (fun a b => b.1.importance < a.1.importance ∨
        (a.1.importance = b.1.importance ∧ a.2.2 ≤ b.2.2)) ∧
    (∀ x ∈ enrichedOf todo tomorrow thr ud,
      (x.1.due = none → x.2.2 = 10 ^ 9) ∧ ∀ d, x.1.due = some d → x.2.2 = d) := by
  refine ⟨rfl, sortByKey_perm _ _, sortByKey_perm _ _, sortByKey_perm _ _,
    sortByKey_perm _ _, ?_, ?_, ?_, ?_, ?_⟩
  · refine (sortByKey_pairwise key12 _).imp ?_
    intro a b h
    rw [keyLe_iff] at h
    simp only [key12] at h
    omega
  · refine (sortByKey_pairwise key12 _).imp ?_
    intro a b h
    rw [keyLe_iff] at h
    simp only [key12] at h
    omega
  · refine (sortByKey_pairwise key12 _).imp ?_
    intro a b h
    rw [keyLe_iff] at h
    simp only [key12] at h
    omega
  · refine (sortByKey_pairwise key4 _).imp ?_
    intro a b h
    rw [keyLe_iff] at h
    simp only [key4] at h
    omega
  · intro x hx
    unfold enrichedOf at hx
    rw [List.mem_map] at hx
    obtain ⟨t, -, rfl⟩ := hx
    constructor
    · intro hd
      dsimp only at hd ⊢
      simp [due_key, hd]
    · intro d hd
      dsimp only at hd ⊢
      simp [due_key, hd]

/-- Witness for C6 at a concrete task list. -/
theorem C6_witness :
    orderedOf (enrichedOf [⟨1, "a", 30, 5, none, "todo"⟩] 0 4 1) 1 =
      q1sorted (enrichedOf [⟨1, "a", 30, 5, none, "todo"⟩] 0 4 1)
        ++ (q2sorted (enrichedOf [⟨1, "a", 30, 5, none, "todo"⟩] 0 4 1)).take
            (max 0 (1 : Int)).toNat
        ++ (q2sorted (enrichedOf [⟨1, "a", 30, 5, none, "todo"⟩] 0 4 1)).drop
            (max 0 (1 : Int)).toNat
        ++ q3sorted (enrichedOf [⟨1, "a", 30, 5, none, "todo"⟩] 0 4 1)
        ++ q4sorted (enrichedOf [⟨1, "a", 30, 5, none, "todo"⟩] 0 4 1) :=
  (C6_ordering [⟨1, "a", 30, 5, none, "todo"⟩] 0 4 1 1).1

/-! Claim C1. -/

/-- C1 (corrected): schedule and overflow always split the todo multiset
exactly: their lengths sum to the todo count and the multiset of task ids
in schedule and overflow equals the todo id multiset; the quadrant map
partitions the todo tasks whenever at least one valid segment exists, but
on the no-valid-segment early return the quadrant map is empty while the
todo list is not, so the partition conjunct needs that hypothesis. -/
theorem C1_partition (tasks : List Task) (tomorrow : Int) (blocks : List (Int × Int))
    (thr ud : Int) (br : ℚ) (k : Int) :
    (generate_schedule tasks tomorrow blocks thr ud br k).1.length +
      (generate_schedule tasks tomorrow blocks thr ud br k).2.2.2.length =
      (todoOf tasks).length ∧
    ((((generate_schedule tasks tomorrow blocks thr ud br k).1.map
        (fun en => en.task_id) : List Nat) : Multiset Nat) +
      (((generate_schedule tasks tomorrow blocks thr ud br k).2.2.2.map
        (fun t => t.id) : List Nat) : Multiset Nat) =
      (((todoOf tasks).map (fun t => t.id) : List Nat) : Multiset Nat)) ∧
    (validSegments tomorrow blocks ≠ [] →
      (((generate_schedule tasks tomorrow blocks thr ud br k).2.1.map
        Prod.snd).flatten).Perm (todoOf tasks)) := by
  have hlabels := enrichedOf_labels tasks tomorrow thr ud
  by_cases h1 : todoOf tasks = []
  · rw [generate_schedule_empty tasks tomorrow blocks thr ud br k h1]
    refine ⟨by simp [h1], by simp [h1], fun _ => ?_⟩
    simp [h1]
  · by_cases h2 : validSegments tomorrow blocks = []
    · rw [generate_schedule_noseg tasks tomorrow blocks thr ud br k h1 h2]
      exact ⟨by simp, by simp, fun h => absurd h2 h⟩
    · rw [generate_schedule_main tasks tomorrow blocks thr ud br k h1 h2]
      unfold mainResult finalState
      dsimp only
      have hperm := orderedOf_perm (enrichedOf (todoOf tasks) tomorrow thr ud) k hlabels
      have hmap1 : (enrichedOf (todoOf tasks) tomorrow thr ud).map (·.1) = todoOf tasks := by
        unfold enrichedOf
        rw [List.map_map]
        exact List.map_id _
      have hord : (orderedOf (enrichedOf (todoOf tasks) tomorrow thr ud) k).length =
          (todoOf tasks).length := by
        have h3 := hperm.length_eq
        unfold enrichedOf at h3
        rw [List.length_map] at h3
        exact h3
      have e1 : (initState (validSegments tomorrow blocks) h2).schedule = [] := rfl
      have e2 : (initState (validSegments tomorrow blocks) h2).overflow = [] := rfl
      refine ⟨?_, ?_, fun _ => ?_⟩
      · have hlen := foldl_len (validSegments tomorrow blocks)
          (schedLimitOf (totalAvailableOf (validSegments tomorrow blocks)) br)
          (orderedOf (enrichedOf (todoOf tasks) tomorrow thr ud) k)
          (initState (validSegments tomorrow blocks) h2)
        rw [e1, e2] at hlen
        simp only [List.length_nil] at hlen
        omega
      · have hids0 := foldl_ids (validSegments tomorrow blocks)
          (schedLimitOf (totalAvailableOf (validSegments tomorrow blocks)) br)
          (orderedOf (enrichedOf (todoOf tasks) tomorrow thr ud) k)
          (initState (validSegments tomorrow blocks) h2)
        rw [e1, e2] at hids0
        simp only [List.map_nil, Multiset.coe_nil, zero_add] at hids0
        rw [hids0]
        have hids : ((orderedOf (enrichedOf (todoOf tasks) tomorrow thr ud) k).map
            (fun x => x.1.id)).Perm ((todoOf tasks).map (fun t => t.id)) := by
          have h3 := hperm.map (fun x => x.1.id)
          have h4 : (enrichedOf (todoOf tasks) tomorrow thr ud).map (fun x => x.1.id) =
              (todoOf tasks).map (fun t => t.id) := by
            unfold enrichedOf
            rw [List.map_map]
            rfl
          rw [h4] at h3
          exact h3
        exact Multiset.coe_eq_coe.2 hids
      · have hjoin := quadMapOf_join_perm (enrichedOf (todoOf tasks) tomorrow thr ud) hlabels
        rw [hmap1] at hjoin
        exact hjoin

/-- Counterexample for C1 as stated: with one todo task and no block, the
quadrant map is empty, so its values do not cover the todo task. -/
theorem C1_counterexample :
    ¬ ((((generate_schedule [⟨1, "a", 30, 5, none, "todo"⟩] 0 [] 4 1 (1/5) 1).2.1.map
      Prod.snd).flatten).Perm (todoOf [⟨1, "a", 30, 5, none, "todo"⟩])) := by
  decide

/-- Witness for C1 at a concrete input with a valid segment. -/
theorem C1_witness :
    (((generate_schedule [⟨1, "a", 30, 5, none, "todo"⟩] 0 [(540, 600)] 4 1 (1/5) 1).2.1.map
      Prod.snd).flatten).Perm (todoOf [⟨1, "a", 30, 5, none, "todo"⟩]) :=
  (C1_partition [⟨1, "a", 30, 5, none, "todo"⟩] 0 [(540, 600)] 4 1 (1/5) 1).2.2
    (by decide)

/-! Claim C4. -/

/-- C4 (confirmed): whenever generate_schedule returns a populated meta
(todo tasks and a valid segment exist) and tasks are well formed (positive
durations), the meta fields satisfy 0 <= used_min <= sched_limit_min <=
total_available_min, and used_min is the summed extent of the scheduled
entries, each of which has the extent of the todo task that produced it. -/
theorem C4_budget (tasks : List Task) (tomorrow : Int) (blocks : List (Int × Int))
    (thr ud : Int) (br : ℚ) (k : Int)
    (hdur : ∀ t ∈ tasks, 0 < t.duration_min)
    (h1 : todoOf tasks ≠ []) (h2 : validSegments tomorrow blocks ≠ []) :
    ∃ m : Meta,
      (generate_schedule tasks tomorrow blocks thr ud br k).2.2.1 = some m ∧
      0 ≤ m.used_min ∧ m.used_min ≤ m.sched_limit_min ∧
      m.sched_limit_min ≤ m.total_available_min ∧ 0 ≤ m.total_available_min ∧
      m.used_min = ((generate_schedule tasks tomorrow blocks thr ud br k).1.map
        (fun en => en.stop - en.start)).sum ∧
      ∀ en ∈ (generate_schedule tasks tomorrow blocks thr ud br k).1,
        ∃ t, t ∈ todoOf tasks ∧ en.task_id = t.id ∧
          en.stop - en.start = t.duration_min := by
  rw [generate_schedule_main tasks tomorrow blocks thr ud br k h1 h2]
  have htot : 0 ≤ totalAvailableOf (validSegments tomorrow blocks) :=
    totalAvailable_nonneg _ (validSegments_valid tomorrow blocks)
  have hlim0 : 0 ≤ schedLimitOf (totalAvailableOf (validSegments tomorrow blocks)) br :=
    schedLimitOf_nonneg _ br htot
  have hlimle : schedLimitOf (totalAvailableOf (validSegments tomorrow blocks)) br ≤
      totalAvailableOf (validSegments tomorrow blocks) :=
    schedLimitOf_le_total _ br htot
  have hdur' : ∀ t ∈ todoOf tasks, 0 < t.duration_min :=
    fun t ht => hdur t (todoOf_sub tasks t ht)
  have hinit := initState_spec (validSegments tomorrow blocks) h2
  have hfold := foldl_budget (validSegments tomorrow blocks)
    (schedLimitOf (totalAvailableOf (validSegments tomorrow blocks)) br)
    (todoOf tasks) hdur'
    (orderedOf (enrichedOf (todoOf tasks) tomorrow thr ud) k)
    (initState (validSegments tomorrow blocks) h2)
    (orderedOf_fst_mem tasks tomorrow thr ud k)
    hinit.1 (le_refl 0) hlim0 (by simp [initState]) (by simp [initState])
  unfold mainResult finalState
  refine ⟨_, rfl, ?_, ?_, ?_, ?_, ?_, ?_⟩
  · exact hfold.2.1
  · exact hfold.2.2.1
  · exact hlimle
  · exact htot
  · exact hfold.2.2.2.1
  · exact hfold.2.2.2.2

/-- Witness for C4 at a concrete input. -/
theorem C4_witness :
    ∃ m : Meta,
      (generate_schedule [⟨1, "a", 30, 5, none, "todo"⟩] 0 [(540, 600)] 4 1 (1/5) 1).2.2.1 =
        some m ∧
      0 ≤ m.used_min ∧ m.used_min ≤ m.sched_limit_min ∧
      m.sched_limit_min ≤ m.total_available_min ∧ 0 ≤ m.total_available_min ∧
      m.used_min = ((generate_schedule [⟨1, "a", 30, 5, none, "todo"⟩] 0 [(540, 600)]
        4 1 (1/5) 1).1.map (fun en => en.stop - en.start)).sum ∧
      ∀ en ∈ (generate_schedule [⟨1, "a", 30, 5, none, "todo"⟩] 0 [(540, 600)] 4 1
        (1/5) 1).1, ∃ t, t ∈ todoOf [⟨1, "a", 30, 5, none, "todo"⟩] ∧
          en.task_id = t.id ∧ en.stop - en.start = t.duration_min :=
  C4_budget [⟨1, "a", 30, 5, none, "todo"⟩] 0 [(540, 600)] 4 1 (1/5) 1
    (by decide) (by decide) (by decide)

/-! Claim C2. -/

/-- Every placed entry stays inside one of the segments, with no
hypothesis on the segment list: placement always happens strictly inside
the segment the cursor stopped in. -/
theorem foldl_contained (segments : List (Int × Int)) (lim : Int) :
    ∀ (l : List (Task × String × Int)) (st : LoopState),
      st.seg_idx ≤ segments.length →
      (∀ en ∈ st.schedule, ∃ j, ∃ hj : j < segments.length,
        (segments.get ⟨j, hj⟩).1 ≤ en.start ∧ en.stop ≤ (segments.get ⟨j, hj⟩).2) →
      (l.foldl (scheduleStep segments lim) st).seg_idx ≤ segments.length ∧
      ∀ en ∈ (l.foldl (scheduleStep segments lim) st).schedule,
        ∃ j, ∃ hj : j < segments.length,
          (segments.get ⟨j, hj⟩).1 ≤ en.start ∧ en.stop ≤ (segments.get ⟨j, hj⟩).2 := by
  intro l
  induction l with
  | nil =>
    intro st hsi hinv
    exact ⟨hsi, hinv⟩
  | cons x xs ih =>
    intro st hsi hinv
    rw [List.foldl_cons]
    by_cases hb : lim < st.used + x.1.duration_min
    · have hstep : scheduleStep segments lim st x =
          { st with overflow := st.overflow ++ [x.1] } := by
        unfold scheduleStep; rw [if_pos hb]
      rw [hstep]
      exact ih _ hsi hinv
    · rcases hpl : placeLoop x.1.duration_min (segments.drop st.seg_idx) st.seg_idx
        st.cursor with ⟨⟨r1, si', cur'⟩, res⟩
      have hspec := placeLoop_spec segments x.1.duration_min (segments.drop st.seg_idx)
        st.seg_idx st.cursor r1 si' cur' res rfl hsi hpl
      cases res with
      | some pe =>
        obtain ⟨hpe, hcur', hsilt, hs1, hs2, hs3⟩ := hspec.2.2.2.2 pe.1 pe.2 rfl
        have hstep : scheduleStep segments lim st x =
            { used := st.used + x.1.duration_min, seg_idx := si', cursor := cur',
              schedule := st.schedule ++
                [{ start := pe.1, stop := pe.2, title := x.1.title,
                   quadrant := x.2.1, task_id := x.1.id }],
              overflow := st.overflow } := by
          unfold scheduleStep; rw [if_neg hb, hpl]
        rw [hstep]
        apply ih _ hspec.2.2.1
        dsimp only
        intro en hen2
        rcases List.mem_append.1 hen2 with hold | hnew
        · exact hinv en hold
        · rcases List.mem_cons.1 hnew with rfl | habs
          · exact ⟨si', hsilt, hs1, hs2⟩
          · cases habs
      | none =>
        have hstep : scheduleStep segments lim st x =
            { st with seg_idx := si', cursor := cur', overflow := st.overflow ++ [x.1] } := by
          unfold scheduleStep; rw [if_neg hb, hpl]
        rw [hstep]
        exact ih _ hspec.2.2.1 hinv

/-- C2 (corrected): every schedule entry lies inside some valid input
segment, for every input; and when additionally the valid segments are
pairwise disjoint intervals (in any order) and the tasks are well formed
(positive durations), no two schedule entries overlap.  Without the
disjointness hypothesis two entries can overlap, as the counterexample
with a duplicated segment shows. -/
theorem C2_no_overlap (tasks : List Task) (tomorrow : Int) (blocks : List (Int × Int))
    (thr ud : Int) (br : ℚ) (k : Int) :
    (∀ en ∈ (generate_schedule tasks tomorrow blocks thr ud br k).1,
      ∃ sg, sg ∈ validSegments tomorrow blocks ∧ sg.1 ≤ en.start ∧ en.stop ≤ sg.2) ∧
    ((∀ t ∈ tasks, 0 < t.duration_min) →
      (validSegments tomorrow blocks).Pairwise (fun a b => a.2 ≤ b.1 ∨ b.2 ≤ a.1) →
      (generate_schedule tasks tomorrow blocks thr ud br k).1.Pairwise
        (fun a b => a.stop ≤ b.start ∨ b.stop ≤ a.start)) := by
  by_cases h1 : todoOf tasks = []
  · rw [generate_schedule_empty tasks tomorrow blocks thr ud br k h1]
    exact ⟨by simp, fun _ _ => by simp⟩
  · by_cases h2 : validSegments tomorrow blocks = []
    · rw [generate_schedule_noseg tasks tomorrow blocks thr ud br k h1 h2]
      exact ⟨by simp, fun _ _ => by simp⟩
    · rw [generate_schedule_main tasks tomorrow blocks thr ud br k h1 h2]
      unfold mainResult finalState
      dsimp only
      constructor
      · have hfold := foldl_contained (validSegments tomorrow blocks)
          (schedLimitOf (totalAvailableOf (validSegments tomorrow blocks)) br)
          (orderedOf (enrichedOf (todoOf tasks) tomorrow thr ud) k)
          (initState (validSegments tomorrow blocks) h2)
          (initState_spec (validSegments tomorrow blocks) h2).1
          (by simp [initState])
        intro en hen
        obtain ⟨j, hj, hb1, hb2⟩ := hfold.2 en hen
        exact ⟨(validSegments tomorrow blocks).get ⟨j, hj⟩,
          List.get_mem (validSegments tomorrow blocks) j hj, hb1, hb2⟩
      · intro hdur hdisj
        have hdur' : ∀ t ∈ todoOf tasks, 0 < t.duration_min :=
          fun t ht => hdur t (todoOf_sub tasks t ht)
        have hfold := foldl_disjoint (validSegments tomorrow blocks)
          (schedLimitOf (totalAvailableOf (validSegments tomorrow blocks)) br)
          hdisj (todoOf tasks) hdur'
          (orderedOf (enrichedOf (todoOf tasks) tomorrow thr ud) k)
          (initState (validSegments tomorrow blocks) h2)
          (orderedOf_fst_mem tasks tomorrow thr ud k)
          (initState_spec (validSegments tomorrow blocks) h2).1
          (by simp [initState]) (by simp [initState])
        exact hfold.2.2

/-- Counterexample for C2 as stated: with two identical one-hour blocks
(the code never checks that segments are disjoint) and two one-hour tasks,
both entries occupy the very same time interval. -/
theorem C2_counterexample :
    ¬ ((generate_schedule [⟨1, "a", 60, 3, none, "todo"⟩, ⟨2, "b", 60, 3, none, "todo"⟩]
        0 [(540, 600), (540, 600)] 4 1 0 1).1.Pairwise
      (fun a b => a.stop ≤ b.start ∨ b.stop ≤ a.start)) := by
  have ht : totalAvailableOf (validSegments 0 [(540, 600), (540, 600)]) = 120 := by decide
  have hsl : schedLimitOf 120 0 = 120 := by
    unfold schedLimitOf
    norm_num
  rw [generate_schedule_main [⟨1, "a", 60, 3, none, "todo"⟩, ⟨2, "b", 60, 3, none, "todo"⟩]
    0 [(540, 600), (540, 600)] 4 1 0 1 (by decide) (by decide)]
  unfold mainResult finalState
  dsimp only
  rw [ht, hsl]
  decide

/-- Witness for C2 at a concrete disjoint-segment input, discharging the
positive-duration and disjointness hypotheses of the overlap conjunct. -/
theorem C2_witness :
    (∀ en ∈ (generate_schedule [⟨1, "a", 30, 5, none, "todo"⟩] 0 [(540, 600)]
        4 1 (1/5) 1).1,
      ∃ sg, sg ∈ validSegments 0 [(540, 600)] ∧ sg.1 ≤ en.start ∧ en.stop ≤ sg.2) ∧
    (generate_schedule [⟨1, "a", 30, 5, none, "todo"⟩] 0 [(540, 600)]
      4 1 (1/5) 1).1.Pairwise (fun a b => a.stop ≤ b.start ∨ b.stop ≤ a.start) :=
  ⟨(C2_no_overlap [⟨1, "a", 30, 5, none, "todo"⟩] 0 [(540, 600)] 4 1 (1/5) 1).1,
   (C2_no_overlap [⟨1, "a", 30, 5, none, "todo"⟩] 0 [(540, 600)] 4 1 (1/5) 1).2
     (by decide) (by decide)⟩

/-! Claim C9. -/

theorem placeLoop_idx_le (dur : Int) :
    ∀ (rest : List (Int × Int)) (si : Nat) (cur : Int),
      si ≤ (placeLoop dur rest si cur).1.2.1 := by
  intro rest
  induction rest with
  | nil => intro si cur; exact le_refl si
  | cons hd rtl ih =>
    obtain ⟨s, e⟩ := hd
    intro si cur
    unfold placeLoop
    by_cases hc : clampCur cur s < e
    · rw [if_pos hc]
      by_cases hf : dur ≤ minutes_between (clampCur cur s) e
      · rw [if_pos hf]
      · rw [if_neg hf]
        exact le_trans (Nat.le_succ si) (ih (si + 1) (clampCur cur s))
    · rw [if_neg hc]
      cases rtl with
      | nil => exact Nat.le_succ si
      | cons hd2 rest2 =>
        obtain ⟨s2, e2⟩ := hd2
        exact le_trans (Nat.le_succ si) (ih (si + 1) s2)

/-- C9 (corrected): the segment index never moves backward during a
placement attempt; and when the valid segments are pairwise in
chronological order and the tasks are well formed (positive durations),
the time cursor never moves backward either, so every placed entry starts
at or after the end of every earlier placed entry.  With out-of-order
segments a later entry can start before an earlier one, as the
counterexample shows. -/
theorem C9_monotone (tasks : List Task) (tomorrow : Int) (blocks : List (Int × Int))
    (thr ud : Int) (br : ℚ) (k : Int)
    (hdur : ∀ t ∈ tasks, 0 < t.duration_min)
    (hsort : (validSegments tomorrow blocks).Pairwise (fun a b => a.2 ≤ b.1)) :
    (∀ (dur : Int) (rest : List (Int × Int)) (si : Nat) (cur : Int),
      si ≤ (placeLoop dur rest si cur).1.2.1) ∧
    (generate_schedule tasks tomorrow blocks thr ud br k).1.Pairwise
      (fun a b => a.stop ≤ b.start) := by
  refine ⟨fun dur rest si cur => placeLoop_idx_le dur rest si cur, ?_⟩
  by_cases h1 : todoOf tasks = []
  · rw [generate_schedule_empty tasks tomorrow blocks thr ud br k h1]
    simp
  · by_cases h2 : validSegments tomorrow blocks = []
    · rw [generate_schedule_noseg tasks tomorrow blocks thr ud br k h1 h2]
      simp
    · rw [generate_schedule_main tasks tomorrow blocks thr ud br k h1 h2]
      unfold mainResult finalState
      dsimp only
      have hdur' : ∀ t ∈ todoOf tasks, 0 < t.duration_min :=
        fun t ht => hdur t (todoOf_sub tasks t ht)
      have hfold := foldl_chrono (validSegments tomorrow blocks)
        (schedLimitOf (totalAvailableOf (validSegments tomorrow blocks)) br)
        hsort (validSegments_valid tomorrow blocks) (todoOf tasks) hdur'
        (orderedOf (enrichedOf (todoOf tasks) tomorrow thr ud) k)
        (initState (validSegments tomorrow blocks) h2)
        (orderedOf_fst_mem tasks tomorrow thr ud k)
        (initState_spec (validSegments tomorrow blocks) h2).1
        (initState_spec (validSegments tomorrow blocks) h2).2
        (by simp [initState]) (by simp [initState])
      exact hfold.2.2.2

/-- Counterexample for C9 as stated: with segments given out of
chronological order, the second task is placed in the earlier segment,
before the first placed entry, so the cursor moved backward in time. -/
theorem C9_counterexample :
    ¬ ((generate_schedule [⟨1, "c", 60, 3, none, "todo"⟩, ⟨2, "d", 30, 3, none, "todo"⟩]
        0 [(540, 600), (480, 510)] 4 1 0 1).1.Pairwise
      (fun a b => a.stop ≤ b.start)) := by
  have ht : totalAvailableOf (validSegments 0 [(540, 600), (480, 510)]) = 90 := by decide
  have hsl : schedLimitOf 90 0 = 90 := by
    unfold schedLimitOf
    norm_num
  rw [generate_schedule_main [⟨1, "c", 60, 3, none, "todo"⟩, ⟨2, "d", 30, 3, none, "todo"⟩]
    0 [(540, 600), (480, 510)] 4 1 0 1 (by decide) (by decide)]
  unfold mainResult finalState
  dsimp only
  rw [ht, hsl]
  decide

/-- Witness for C9 at a concrete chronologically ordered input. -/
theorem C9_witness :
    (∀ (dur : Int) (rest : List (Int × Int)) (si : Nat) (cur : Int),
      si ≤ (placeLoop dur rest si cur).1.2.1) ∧
    (generate_schedule [⟨1, "c", 60, 3, none, "todo"⟩, ⟨2, "d", 30, 3, none, "todo"⟩]
      0 [(480, 510), (540, 600)] 4 1 (1/5) 1).1.Pairwise
      (fun a b => a.stop ≤ b.start) :=
  C9_monotone [⟨1, "c", 60, 3, none, "todo"⟩, ⟨2, "d", 30, 3, none, "todo"⟩]
    0 [(480, 510), (540, 600)] 4 1 (1/5) 1 (by decide) (by decide)

end App
